import Mathlib

/-!
Verification of the structured-grid interpolation engine of pangeo-pyinterp.

The repository fragment under version control here contains only the binding
registration files (src/pyinterp/core/module/{grid,trivariate,quadrivariate}.cpp);
the axis / grid / kernel machinery itself is declared in headers that are not
part of the fragment.  Following the specification, the missing core is
modelled here over the rationals (exact arithmetic standing in for the two
floating-point precisions), and the registration tables are transcribed
directly from the three source files.
-/

/-- Transient result of a cell-locator query on one axis: the bracketing
index pair and the fractional position between the two samples. -/
structure CellBracket where
  i0 : ℕ
  i1 : ℕ
  t : ℚ
  deriving DecidableEq

/-- Modelled from the spec: the Axis bracket search (spec 4.1, irregular
axis) is not under src/; this is the reference binary search over an ordered
coordinate sequence, locating the greatest lower bracketing index between
lo and hi.  Fuel-based recursion; callers pass the sequence length as fuel. -/
def bsearchAux (c : ℕ → ℚ) (x : ℚ) : ℕ → ℕ → ℕ → ℕ
  | 0, lo, _ => lo
  | fuel + 1, lo, hi =>
    if hi ≤ lo + 1 then lo
    else if c ((lo + hi) / 2) ≤ x then bsearchAux c x fuel ((lo + hi) / 2) hi
    else bsearchAux c x fuel lo ((lo + hi) / 2)

/-- Modelled from the spec: generic `index_of` on an ordered coordinate
sequence (spec 4.1): binary search for the bracketing pair, fractional
offset by linear ratio between the two bracketing samples. -/
def searchBracket (c : List ℚ) (x : ℚ) : CellBracket :=
  let i := bsearchAux (fun j => c.getD j 0) x c.length 0 (c.length - 1)
  ⟨i, i + 1, (x - c.getD i 0) / (c.getD (i + 1) 0 - c.getD i 0)⟩

/-- Coordinate sequence of a regular axis: n samples starting at mn with
constant step. -/
def regularCoords (mn step : ℚ) (n : ℕ) : List ℚ :=
  (List.range n).map (fun (i : ℕ) => mn + (i : ℚ) * step)

/-- Modelled from the spec: the O(1) fast-path `index_of` of a regular axis
(spec 4.1): i = floor((x - mn) / step) clamped to the last cell, fractional
part (x - mn)/step - i. -/
def regularBracket (mn step : ℚ) (n : ℕ) (x : ℚ) : CellBracket :=
  let q := (x - mn) / step
  let i := min (n - 2) (Int.toNat ⌊q⌋)
  ⟨i, i + 1, q - (i : ℚ)⟩

/-- Modelled from the spec: reduction of a coordinate modulo the period into
the representable range [mn, mn + P) of a circular axis (spec 4.1). -/
def normalizeCirc (mn P x : ℚ) : ℚ := x - P * ⌊(x - mn) / P⌋

/-- Modelled from the spec: `index_of` of a circular axis (spec 4.1): the
coordinate is first reduced modulo the period; when the reduced coordinate
falls past the last sample the bracket wraps from the last sample to the
first and the fractional offset uses the period-adjusted distance
(mn + P) - last, not raw subtraction. -/
def indexOfCircular (c : List ℚ) (P x : ℚ) : CellBracket :=
  if c.getD (c.length - 1) 0 ≤ normalizeCirc (c.getD 0 0) P x then
    ⟨c.length - 1, 0,
      (normalizeCirc (c.getD 0 0) P x - c.getD (c.length - 1) 0) /
        (c.getD 0 0 + P - c.getD (c.length - 1) 0)⟩
  else searchBracket c (normalizeCirc (c.getD 0 0) P x)

/-- Modelled from the spec: the multilinear kernel computed by iteratively
collapsing one axis at a time (spec 4.4, fold implementation).  The function
s gives the corner sample selected by one Bool per remaining axis. -/
def mlin : List ℚ → (List Bool → ℚ) → ℚ
  | [], s => s []
  | t :: ts, s => mlin ts (fun bits => (1 - t) * s (false :: bits) + t * s (true :: bits))

/-- All Bool vectors of the given length, enumerating the 2^D corners. -/
def boolVecs : ℕ → List (List Bool)
  | 0 => [[]]
  | n + 1 => (boolVecs n).map (fun bs => false :: bs) ++ (boolVecs n).map (fun bs => true :: bs)

/-- Product of per-axis weights of one corner: t on the upper side,
1 - t on the lower side. -/
def cornerWeight (ts : List ℚ) (bs : List Bool) : ℚ :=
  (List.zipWith (fun t b => if b then t else 1 - t) ts bs).prod

/-- Modelled from the spec: the direct 2^D-term weighted sum form of
multilinear interpolation (spec 4.4): sum over corners of
sample times the product of per-axis weights. -/
def msum (ts : List ℚ) (s : List Bool → ℚ) : ℚ :=
  ((boolVecs ts.length).map (fun bs => s bs * cornerWeight ts bs)).sum

/-- Multi-index of one corner of the bracketed cell: lower or upper
bracketing index on each axis according to the corner bit. -/
def corner (brs : List CellBracket) (bits : List Bool) : List ℕ :=
  List.zipWith (fun (br : CellBracket) b => if b then br.i1 else br.i0) brs bits

/-- Row-major flat offset of a multi-index into a dense sample array with
the given per-axis lengths. -/
def flatIndex : List ℕ → List ℕ → ℕ
  | _ :: ds, i :: is => i * ds.prod + flatIndex ds is
  | _, _ => 0

/-- Modelled from the spec: raw sample fetch of the Grid (spec 4.3) from the
dense row-major sample array. -/
def gridFetch (dims : List ℕ) (samples : List ℚ) (ix : List ℕ) : ℚ :=
  samples.getD (flatIndex dims ix) 0

/-- Modelled from the spec: the full query pipeline (spec 2): each axis
resolves its bracket and fractional position, the 2^D corner samples are
fetched, and the multilinear kernel combines them. -/
def interpAt (axes : List (List ℚ)) (samples : List ℚ) (qs : List ℚ) : ℚ :=
  let brs := List.zipWith searchBracket axes qs
  mlin (brs.map CellBracket.t)
    (fun bits => gridFetch (axes.map List.length) samples (corner brs bits))

/-- Out-of-range policy of a query (spec 6 configuration surface). -/
inductive Policy
  | reject
  | clamp
  deriving DecidableEq

/-- Whether x lies within the sampled range of the axis. -/
def inRangeB (c : List ℚ) (x : ℚ) : Bool :=
  decide (c.getD 0 0 ≤ x) && decide (x ≤ c.getD (c.length - 1) 0)

/-- Whether every coordinate of the query lies within its axis range. -/
def allInRangeB (axes : List (List ℚ)) (qs : List ℚ) : Bool :=
  (List.zipWith inRangeB axes qs).all (fun b => b)

/-- Clamp a coordinate to the sampled range of the axis. -/
def clampCoord (c : List ℚ) (x : ℚ) : ℚ :=
  max (c.getD 0 0) (min (c.getD (c.length - 1) 0) x)

/-- Modelled from the spec: evaluation of one query element under an
out-of-range policy (spec 7): reject flags an out-of-range element with the
sentinel none; clamp clamps every coordinate to the axis boundary first. -/
def evalOne (pol : Policy) (axes : List (List ℚ)) (samples : List ℚ)
    (qs : List ℚ) : Option ℚ :=
  match pol with
  | .reject => if allInRangeB axes qs then some (interpAt axes samples qs) else none
  | .clamp => some (interpAt axes samples (List.zipWith clampCoord axes qs))

/-- Modelled from the spec: batch evaluation (spec 5, 7): every element of
the batch is evaluated independently; failures are flagged per element via
the sentinel and never abort sibling elements. -/
def evalBatch (pol : Policy) (axes : List (List ℚ)) (samples : List ℚ)
    (queries : List (List ℚ)) : List (Option ℚ) :=
  queries.map (evalOne pol axes samples)

/-- Default power of the inverse-distance-weighting kernel (spec 4.4). -/
def idwDefaultPower : ℕ := 2

/-- Modelled from the spec: the inverse-distance-weighting kernel
(spec 4.4): corners carry their distance from the query point in normalized
axis units together with their sample value; when the query coincides with a
sample (distance zero) the kernel short-circuits and returns that sample,
otherwise every corner is weighted by 1/distance^p. -/
def idw (p : ℕ) (corners : List (ℚ × ℚ)) : ℚ :=
  match corners.find? (fun cr => decide (cr.1 = 0)) with
  | some cr => cr.2
  | none =>
      ((corners.map (fun cr => cr.2 / cr.1 ^ p)).sum) /
        ((corners.map (fun cr => 1 / cr.1 ^ p)).sum)

/-- Construction input of one axis: coordinate sequence, circular flag and
period (spec 6). -/
structure AxisInput where
  coords : List ℚ
  circular : Bool
  period : ℚ
  deriving DecidableEq

/-- Construction-time validation failures (spec 7). -/
inductive ConstructionError
  | invalidAxis
  | shapeMismatch
  deriving DecidableEq

/-- Whether a coordinate sequence is strictly increasing. -/
def strictIncB : List ℚ → Bool
  | [] => true
  | [_] => true
  | a :: b :: r => decide (a < b) && strictIncB (b :: r)

/-- Whether a coordinate sequence is strictly decreasing. -/
def strictDecB : List ℚ → Bool
  | [] => true
  | [_] => true
  | a :: b :: r => decide (b < a) && strictDecB (b :: r)

/-- Strict monotonicity in either direction; duplicate values fail both. -/
def monotonicB (c : List ℚ) : Bool := strictIncB c || strictDecB c

/-- Modelled from the spec: validity of a circular axis (spec 7): the period
must be positive and the sampled span (the absolute distance between the
first and the last sample, so the check is the same for ascending and
descending axes) must fit within one period so that the wrap cell from the
last sample back to the first has positive width. -/
def circularOkB (a : AxisInput) : Bool :=
  !a.circular ||
    (decide (0 < a.period) &&
      decide (|a.coords.getD (a.coords.length - 1) 0 - a.coords.getD 0 0| < a.period))

/-- A constructed grid: the validated axes and the dense sample array. -/
structure GridData where
  axes : List AxisInput
  samples : List ℚ
  deriving DecidableEq

/-- Combined per-axis validation. -/
def axisOkB (a : AxisInput) : Bool := monotonicB a.coords && circularOkB a

/-- Modelled from the spec: eager Grid construction (spec 6, 7): every axis
must be strictly monotonic (duplicates rejected), every circular axis must
have a valid period, and the sample array size must equal the product of the
axis lengths; any failure aborts construction with an error and no grid
value is produced. -/
def buildGrid (axes : List AxisInput) (samples : List ℚ) :
    Except ConstructionError GridData :=
  if axes.all axisOkB then
    if samples.length = (axes.map (fun a => a.coords.length)).prod then
      .ok ⟨axes, samples⟩
    else .error .shapeMismatch
  else .error .invalidAxis

/-- The two sample precisions of the bindings plus the integer temporal
element type: float64 stands for C++ double, float32 for float, int64 for
int64_t. -/
inductive NumType
  | float64
  | float32
  | int64
  deriving DecidableEq

/-- Geometry point types named by the binding registrations. -/
inductive GeomPoint
  | equatorialPoint3D
  | temporalEquatorial2D
  | equatorialPoint4D
  deriving DecidableEq

/-- Which binding module registers the entry point. -/
inductive BindingKind
  | gridBinding
  | trivariateBinding
  | quadrivariateBinding
  deriving DecidableEq

/-- One registered template instantiation of the binding layer. -/
structure EntryPoint where
  kind : BindingKind
  point : Option GeomPoint
  coordType : Option NumType
  axisType : Option NumType
  sample : NumType
  temporalTag : Bool
  deriving DecidableEq

/-- Registered instantiations transcribed from
src/pyinterp/core/module: grid.cpp registers implement_grid for double and
float; trivariate.cpp registers implement_trivariate for
EquatorialPoint3D with coordinate double, z-axis double and samples double
or float, and for TemporalEquatorial2D with coordinate double, z-axis
int64_t and samples double under the Temporal tag; quadrivariate.cpp
registers implement_quadrivariate for EquatorialPoint4D with coordinate
double and samples double or float. -/
def registeredEntryPoints : List EntryPoint :=
  [⟨.gridBinding, none, none, none, .float64, false⟩,
   ⟨.gridBinding, none, none, none, .float32, false⟩,
   ⟨.trivariateBinding, some .equatorialPoint3D, some .float64, some .float64, .float64, false⟩,
   ⟨.trivariateBinding, some .equatorialPoint3D, some .float64, some .float64, .float32, false⟩,
   ⟨.trivariateBinding, some .temporalEquatorial2D, some .float64, some .int64, .float64, true⟩,
   ⟨.quadrivariateBinding, some .equatorialPoint4D, some .float64, none, .float64, false⟩,
   ⟨.quadrivariateBinding, some .equatorialPoint4D, some .float64, none, .float32, false⟩]

/-- Concrete corner-selector used by the witness of the fold-equals-sum
theorem. -/
def cornerSampleW : List Bool → ℚ :=
  fun bs => if bs.getD 0 false then 3 else 5

/-- The binary search returns an index r with lo ≤ r, r + 1 ≤ hi, whose
sample does not exceed x, and whose successor's sample (when still inside
the search interval) exceeds x. -/
theorem bsearchAux_spec (c : ℕ → ℚ) (x : ℚ) :
    ∀ fuel lo hi, hi ≤ lo + fuel + 1 → lo + 1 ≤ hi → c lo ≤ x →
      lo ≤ bsearchAux c x fuel lo hi ∧
      bsearchAux c x fuel lo hi + 1 ≤ hi ∧
      c (bsearchAux c x fuel lo hi) ≤ x ∧
      (bsearchAux c x fuel lo hi + 2 ≤ hi → x < c (bsearchAux c x fuel lo hi + 1)) := by
  intro fuel
  induction fuel with
  | zero =>
    intro lo hi hfuel hlh hlx
    have hhi : hi = lo + 1 := by omega
    simp only [bsearchAux]
    refine ⟨le_refl lo, by omega, hlx, ?_⟩
    intro h
    omega
  | succ fuel ih =>
    intro lo hi hfuel hlh hlx
    simp only [bsearchAux]
    by_cases hb : hi ≤ lo + 1
    · simp only [hb, if_true]
      refine ⟨le_refl lo, by omega, hlx, ?_⟩
      intro h
      omega
    · simp only [hb, if_false]
      have hmid1 : lo + 1 ≤ (lo + hi) / 2 := by omega
      have hmid2 : (lo + hi) / 2 + 1 ≤ hi := by omega
      by_cases hc : c ((lo + hi) / 2) ≤ x
      · simp only [hc, if_true]
        have h1 := ih ((lo + hi) / 2) hi (by omega) (by omega) hc
        exact ⟨by omega, h1.2.1, h1.2.2.1, h1.2.2.2⟩
      · simp only [hc, if_false]
        have h1 := ih lo ((lo + hi) / 2) (by omega) (by omega) hlx
        refine ⟨h1.1, by omega, h1.2.2.1, ?_⟩
        intro h2
        rcases Nat.lt_or_ge (bsearchAux c x fuel lo ((lo + hi) / 2) + 2) ((lo + hi) / 2 + 1) with h3 | h3
        · exact h1.2.2.2 (by omega)
        · have h4 : bsearchAux c x fuel lo ((lo + hi) / 2) + 1 = (lo + hi) / 2 := by omega
          rw [h4]
          exact lt_of_not_ge hc

/-- On a strictly monotonic sequence there is exactly one bracketing index
satisfying the search characterization. -/
theorem bracket_idx_unique (c : ℕ → ℚ) (n : ℕ) (x : ℚ)
    (mono : ∀ q, q < n → ∀ p, p < q → c p < c q)
    (r s : ℕ)
    (hr1 : r + 1 ≤ n - 1) (hr2 : c r ≤ x) (hr3 : r + 2 ≤ n - 1 → x < c (r + 1))
    (hs1 : s + 1 ≤ n - 1) (hs2 : c s ≤ x) (hs3 : s + 2 ≤ n - 1 → x < c (s + 1)) :
    r = s := by
  rcases lt_trichotomy r s with h | h | h
  · exfalso
    have hx1 : x < c (r + 1) := hr3 (by omega)
    have hx2 : c (r + 1) ≤ c s := by
      rcases Nat.lt_or_ge (r + 1) s with h2 | h2
      · exact le_of_lt (mono s (by omega) (r + 1) h2)
      · have : r + 1 = s := by omega
        rw [this]
    linarith
  · exact h
  · exfalso
    have hx1 : x < c (s + 1) := hs3 (by omega)
    have hx2 : c (s + 1) ≤ c r := by
      rcases Nat.lt_or_ge (s + 1) r with h2 | h2
      · exact le_of_lt (mono r (by omega) (s + 1) h2)
      · have : s + 1 = r := by omega
        rw [this]
    linarith

/-- Characterization of the bracket returned by the generic binary-search
path on a sequence of length at least two, for queries at or above the first
sample. -/
theorem searchBracket_char (c : List ℚ) (x : ℚ) (h2 : 2 ≤ c.length)
    (hlo : c.getD 0 0 ≤ x) :
    (searchBracket c x).i0 + 1 ≤ c.length - 1 ∧
    c.getD (searchBracket c x).i0 0 ≤ x ∧
    ((searchBracket c x).i0 + 2 ≤ c.length - 1 → x < c.getD ((searchBracket c x).i0 + 1) 0) ∧
    (searchBracket c x).i1 = (searchBracket c x).i0 + 1 ∧
    (searchBracket c x).t = (x - c.getD (searchBracket c x).i0 0) /
      (c.getD ((searchBracket c x).i0 + 1) 0 - c.getD (searchBracket c x).i0 0) := by
  have h := bsearchAux_spec (fun j => c.getD j 0) x c.length 0 (c.length - 1)
    (by omega) (by omega) hlo
  exact ⟨h.2.1, h.2.2.1, h.2.2.2, rfl, rfl⟩

/-- Length of the regular coordinate sequence. -/
theorem regularCoords_length (mn step : ℚ) (n : ℕ) :
    (regularCoords mn step n).length = n := by
  rw [regularCoords, List.length_map, List.length_range]

/-- Entries of the regular coordinate sequence. -/
theorem regularCoords_getD (mn step : ℚ) (n i : ℕ) (hi : i < n) :
    (regularCoords mn step n).getD i 0 = mn + (i : ℚ) * step := by
  have hlen : i < (regularCoords mn step n).length := by
    rw [regularCoords_length]; exact hi
  rw [List.getD_eq_getElem _ _ hlen]
  unfold regularCoords
  rw [List.getElem_map, List.getElem_range]

/-- The regular coordinate sequence is strictly increasing when the step is
positive. -/
theorem regularCoords_mono (mn step : ℚ) (n : ℕ) (hstep : 0 < step) :
    ∀ q, q < n → ∀ p, p < q →
      (regularCoords mn step n).getD p 0 < (regularCoords mn step n).getD q 0 := by
  intro q hq p hp
  rw [regularCoords_getD mn step n p (by omega), regularCoords_getD mn step n q hq]
  have : (p : ℚ) < (q : ℚ) := by exact_mod_cast hp
  nlinarith

/-- C2: for every regular axis (constant step) and every query coordinate
within the axis range, boundary coordinates exactly equal to a sample
included, the O(1) fast-path index computation returns the same bracket
(index pair and fractional offset) as the reference binary search over the
same coordinate sequence. -/
theorem regular_index_eq_bsearch (mn step : ℚ) (n : ℕ) (x : ℚ)
    (hstep : 0 < step) (hn : 2 ≤ n)
    (hxlo : mn ≤ x) (hxhi : x ≤ mn + ((n : ℚ) - 1) * step) :
    regularBracket mn step n x = searchBracket (regularCoords mn step n) x := by
  have hlen : (regularCoords mn step n).length = n := regularCoords_length mn step n
  have hget : ∀ i, i < n → (regularCoords mn step n).getD i 0 = mn + (i : ℚ) * step :=
    fun i hi => regularCoords_getD mn step n i hi
  have hlo : (regularCoords mn step n).getD 0 0 ≤ x := by
    rw [hget 0 (by omega)]
    push_cast
    linarith
  have hchar := searchBracket_char (regularCoords mn step n) x (by omega) hlo
  set q : ℚ := (x - mn) / step with hqdef
  set m : ℕ := Int.toNat ⌊q⌋ with hmdef
  set i : ℕ := min (n - 2) m with hidef
  have hq0 : 0 ≤ q := div_nonneg (by linarith) (le_of_lt hstep)
  have hqn : q ≤ (n : ℚ) - 1 := by
    rw [hqdef, div_le_iff₀ hstep]
    linarith
  have hfl0 : 0 ≤ ⌊q⌋ := Int.floor_nonneg.mpr hq0
  have hmz : (m : ℤ) = ⌊q⌋ := Int.toNat_of_nonneg hfl0
  have hmQ : (m : ℚ) ≤ q := by
    have h := Int.floor_le q
    rw [← hmz] at h
    exact_mod_cast h
  have hqm : q < (m : ℚ) + 1 := by
    have h := Int.lt_floor_add_one q
    rw [← hmz] at h
    exact_mod_cast h
  have hile : i ≤ n - 2 := Nat.min_le_left _ _
  have him : i ≤ m := Nat.min_le_right _ _
  have hqs : q * step = x - mn := div_mul_cancel₀ _ (ne_of_gt hstep)
  have hA1 : i + 1 ≤ n - 1 := by omega
  have hA2 : (regularCoords mn step n).getD i 0 ≤ x := by
    rw [hget i (by omega)]
    have hiq : (i : ℚ) ≤ q := le_trans (by exact_mod_cast him) hmQ
    nlinarith
  have hA3 : i + 2 ≤ n - 1 → x < (regularCoords mn step n).getD (i + 1) 0 := by
    intro hlt
    have him2 : i = m := by omega
    rw [hget (i + 1) (by omega)]
    have hqi : q < (i : ℚ) + 1 := by
      rw [him2]
      exact hqm
    push_cast
    nlinarith
  have hmono : ∀ b, b < n → ∀ a, a < b →
      (regularCoords mn step n).getD a 0 < (regularCoords mn step n).getD b 0 :=
    regularCoords_mono mn step n hstep
  rw [hlen] at hchar
  have hreq : (searchBracket (regularCoords mn step n) x).i0 = i :=
    bracket_idx_unique (fun j => (regularCoords mn step n).getD j 0) n x hmono
      (searchBracket (regularCoords mn step n) x).i0 i
      hchar.1 hchar.2.1 hchar.2.2.1 hA1 hA2 hA3
  have heta : searchBracket (regularCoords mn step n) x =
      ⟨(searchBracket (regularCoords mn step n) x).i0,
       (searchBracket (regularCoords mn step n) x).i1,
       (searchBracket (regularCoords mn step n) x).t⟩ := rfl
  have ht : (searchBracket (regularCoords mn step n) x).t = q - (i : ℚ) := by
    rw [hchar.2.2.2.2, hreq, hget i (by omega), hget (i + 1) (by omega)]
    have hne : step ≠ 0 := ne_of_gt hstep
    push_cast
    rw [show mn + ((i : ℚ) + 1) * step - (mn + (i : ℚ) * step) = step by ring]
    rw [show x - (mn + (i : ℚ) * step) = (x - mn) - (i : ℚ) * step by ring]
    rw [sub_div, mul_div_assoc, div_self hne, mul_one]
  rw [heta, hchar.2.2.2.1, hreq, ht]
  rfl

/-- Witness for the fast-path equivalence at a concrete regular axis. -/
theorem regular_index_eq_bsearch_witness :
    ((0 : ℚ) < 1 ∧ 2 ≤ 3 ∧ (0 : ℚ) ≤ 3 / 2 ∧ (3 : ℚ) / 2 ≤ 0 + (((3 : ℕ) : ℚ) - 1) * 1) ∧
    regularBracket 0 1 3 (3 / 2) = searchBracket (regularCoords 0 1 3) (3 / 2) :=
  ⟨⟨by decide, by decide, by with_unfolding_all decide, by with_unfolding_all decide⟩,
    regular_index_eq_bsearch 0 1 3 (3 / 2) (by decide) (by decide)
      (by with_unfolding_all decide) (by with_unfolding_all decide)⟩

/-- Reduction modulo the period is invariant under shifting the coordinate
by any whole number of periods. -/
theorem normalizeCirc_periodic (mn P x : ℚ) (k : ℤ) (hP : P ≠ 0) :
    normalizeCirc mn P (x + (k : ℚ) * P) = normalizeCirc mn P x := by
  unfold normalizeCirc
  have harg : (x + (k : ℚ) * P - mn) / P = (x - mn) / P + (k : ℚ) := by
    field_simp
    ring
  rw [harg, Int.floor_add_int]
  push_cast
  ring

/-- C3: for every circular axis with period P, every coordinate x and every
integer k, `index_of` returns identical brackets and fractional offsets for
x and x + k·P; moreover when the reduced coordinate falls past the last
sample the bracket wraps from the last sample (index n-1) to the first
(index 0) and its fractional offset is the period-adjusted ratio
(y - last) / ((first + P) - last), not a raw subtraction against a
neighboring sample. -/
theorem circular_index_periodic (c : List ℚ) (P x : ℚ) (k : ℤ) (hP : 0 < P) :
    indexOfCircular c P (x + (k : ℚ) * P) = indexOfCircular c P x ∧
    (c.getD (c.length - 1) 0 ≤ normalizeCirc (c.getD 0 0) P x →
      indexOfCircular c P x =
        ⟨c.length - 1, 0,
          (normalizeCirc (c.getD 0 0) P x - c.getD (c.length - 1) 0) /
            (c.getD 0 0 + P - c.getD (c.length - 1) 0)⟩) := by
  constructor
  · unfold indexOfCircular
    rw [normalizeCirc_periodic (c.getD 0 0) P x k (ne_of_gt hP)]
  · intro hwrap
    unfold indexOfCircular
    rw [if_pos hwrap]

/-- Witness for circular periodicity on the longitude axis [0, 90, 180, 270]
with period 360, at x = 45 shifted by two periods. -/
theorem circular_index_periodic_witness :
    (0 : ℚ) < 360 ∧
    (indexOfCircular [0, 90, 180, 270] 360 (45 + ((2 : ℤ) : ℚ) * 360) =
        indexOfCircular [0, 90, 180, 270] 360 45 ∧
      (([0, 90, 180, 270] : List ℚ).getD (([0, 90, 180, 270] : List ℚ).length - 1) 0 ≤
          normalizeCirc (([0, 90, 180, 270] : List ℚ).getD 0 0) 360 45 →
        indexOfCircular [0, 90, 180, 270] 360 45 =
          ⟨([0, 90, 180, 270] : List ℚ).length - 1, 0,
            (normalizeCirc (([0, 90, 180, 270] : List ℚ).getD 0 0) 360 45 -
                ([0, 90, 180, 270] : List ℚ).getD (([0, 90, 180, 270] : List ℚ).length - 1) 0) /
              (([0, 90, 180, 270] : List ℚ).getD 0 0 + 360 -
                ([0, 90, 180, 270] : List ℚ).getD (([0, 90, 180, 270] : List ℚ).length - 1) 0)⟩)) :=
  ⟨by decide, circular_index_periodic [0, 90, 180, 270] 360 45 2 (by decide)⟩

/-- Summing a pointwise sum of two functions over a list splits into two
sums. -/
theorem sum_map_add_helper (l : List (List Bool)) (f g : List Bool → ℚ) :
    (l.map (fun bs => f bs + g bs)).sum = (l.map f).sum + (l.map g).sum := by
  induction l with
  | nil => simp
  | cons a l ih =>
    simp only [List.map_cons, List.sum_cons, ih]
    ring

/-- The corner weight of an extended corner splits off the first axis. -/
theorem cornerWeight_cons (t : ℚ) (ts : List ℚ) (b : Bool) (bs : List Bool) :
    cornerWeight (t :: ts) (b :: bs) = (if b then t else 1 - t) * cornerWeight ts bs := by
  simp [cornerWeight]

/-- The fold implementation of the multilinear kernel agrees with the
direct weighted sum over all 2^D corners, for every dimension. -/
theorem mlin_eq_msum_aux (ts : List ℚ) : ∀ s : List Bool → ℚ, mlin ts s = msum ts s := by
  induction ts with
  | nil =>
    intro s
    simp [mlin, msum, boolVecs, cornerWeight]
  | cons t ts ih =>
    intro s
    have hstep : mlin (t :: ts) s =
        msum ts (fun bits => (1 - t) * s (false :: bits) + t * s (true :: bits)) := by
      rw [show mlin (t :: ts) s =
          mlin ts (fun bits => (1 - t) * s (false :: bits) + t * s (true :: bits)) from rfl]
      exact ih _
    rw [hstep]
    unfold msum
    rw [show (t :: ts).length = ts.length + 1 from rfl]
    rw [show boolVecs (ts.length + 1) =
        (boolVecs ts.length).map (fun bs => false :: bs) ++
          (boolVecs ts.length).map (fun bs => true :: bs) from rfl]
    rw [List.map_append, List.sum_append, List.map_map, List.map_map]
    have hfalse : ((fun bs => s bs * cornerWeight (t :: ts) bs) ∘ fun bs => false :: bs)
        = fun bs => s (false :: bs) * ((1 - t) * cornerWeight ts bs) := by
      funext bs
      simp [Function.comp, cornerWeight_cons]
    have htrue : ((fun bs => s bs * cornerWeight (t :: ts) bs) ∘ fun bs => true :: bs)
        = fun bs => s (true :: bs) * (t * cornerWeight ts bs) := by
      funext bs
      simp [Function.comp, cornerWeight_cons]
    rw [hfalse, htrue]
    have hsplit : (fun bits => ((1 - t) * s (false :: bits) + t * s (true :: bits)) *
        cornerWeight ts bits)
        = fun bits => s (false :: bits) * ((1 - t) * cornerWeight ts bits) +
            s (true :: bits) * (t * cornerWeight ts bits) := by
      funext bits
      ring
    rw [hsplit]
    exact sum_map_add_helper _ _ _

/-- C4: for every dimension D in {2, 3, 4}, every corner-sample selector and
every vector of per-axis fractional weights, the multilinear value computed
by iteratively collapsing one axis at a time (the fold implementation)
equals the direct 2^D-term weighted sum over the corners. -/
theorem mlin_eq_direct_sum (ts : List ℚ) (s : List Bool → ℚ)
    (_hD : ts.length = 2 ∨ ts.length = 3 ∨ ts.length = 4) :
    mlin ts s = msum ts s :=
  mlin_eq_msum_aux ts s

/-- Witness for the fold-equals-sum equivalence at a concrete
two-dimensional weight vector. -/
theorem mlin_eq_direct_sum_witness :
    (([1 / 2, 1 / 3] : List ℚ).length = 2 ∨ ([1 / 2, 1 / 3] : List ℚ).length = 3 ∨
      ([1 / 2, 1 / 3] : List ℚ).length = 4) ∧
    mlin [1 / 2, 1 / 3] cornerSampleW = msum [1 / 2, 1 / 3] cornerSampleW :=
  ⟨Or.inl rfl, mlin_eq_direct_sum [1 / 2, 1 / 3] cornerSampleW (Or.inl rfl)⟩

/-- When every weight is exactly 0 or 1 the multilinear fold collapses to
the single corner selected by rounding every weight. -/
theorem mlin_select (ts : List ℚ) (bs : List Bool)
    (h : List.Forall₂ (fun t b => t = if b then (1 : ℚ) else 0) ts bs) :
    ∀ s : List Bool → ℚ, mlin ts s = s bs := by
  induction h with
  | nil =>
    intro s
    rfl
  | @cons t b ts bs ht hrest ih =>
    intro s
    rw [show mlin (t :: ts) s =
        mlin ts (fun bits => (1 - t) * s (false :: bits) + t * s (true :: bits)) from rfl]
    rw [ih]
    cases b with
    | false =>
      rw [if_neg Bool.false_ne_true] at ht
      rw [ht]
      ring_nf
    | true =>
      rw [if_pos rfl] at ht
      rw [ht]
      ring_nf

/-- At a query coordinate exactly equal to a sample, the binary-search
bracket either has the sample as its lower corner with offset 0, or (for
the last sample) has it as its upper corner with offset 1. -/
theorem searchBracket_at_sample (c : List ℚ) (i : ℕ)
    (hmono : ∀ b, b < c.length → ∀ a, a < b → c.getD a 0 < c.getD b 0)
    (h2 : 2 ≤ c.length) (hi : i < c.length) :
    (i + 1 < c.length ∧ searchBracket c (c.getD i 0) = ⟨i, i + 1, 0⟩) ∨
    (i + 1 = c.length ∧
      searchBracket c (c.getD i 0) = ⟨c.length - 2, c.length - 1, 1⟩) := by
  have hlo : c.getD 0 0 ≤ c.getD i 0 := by
    rcases Nat.eq_zero_or_pos i with h0 | h0
    · rw [h0]
    · exact le_of_lt (hmono i hi 0 h0)
  have hchar := searchBracket_char c (c.getD i 0) h2 hlo
  have heta : searchBracket c (c.getD i 0) =
      ⟨(searchBracket c (c.getD i 0)).i0, (searchBracket c (c.getD i 0)).i1,
       (searchBracket c (c.getD i 0)).t⟩ := rfl
  rcases Nat.lt_or_ge (i + 1) c.length with hcase | hcase
  · left
    refine ⟨hcase, ?_⟩
    have hri : (searchBracket c (c.getD i 0)).i0 = i := by
      refine bracket_idx_unique (fun j => c.getD j 0) c.length (c.getD i 0) hmono
        (searchBracket c (c.getD i 0)).i0 i hchar.1 hchar.2.1 hchar.2.2.1
        (by omega) (le_refl _) ?_
      intro hlt
      exact hmono (i + 1) (by omega) i (by omega)
    have ht : (searchBracket c (c.getD i 0)).t = 0 := by
      rw [hchar.2.2.2.2, hri, sub_self, zero_div]
    rw [heta, hchar.2.2.2.1, hri, ht]
  · right
    have hieq : i + 1 = c.length := by omega
    refine ⟨hieq, ?_⟩
    have hri : (searchBracket c (c.getD i 0)).i0 = c.length - 2 := by
      refine bracket_idx_unique (fun j => c.getD j 0) c.length (c.getD i 0) hmono
        (searchBracket c (c.getD i 0)).i0 (c.length - 2) hchar.1 hchar.2.1 hchar.2.2.1
        (by omega) ?_ ?_
      · have : c.length - 2 < i := by omega
        exact le_of_lt (hmono i hi (c.length - 2) this)
      · intro hlt
        omega
    have hne : c.getD (c.length - 2 + 1) 0 - c.getD (c.length - 2) 0 ≠ 0 := by
      have := hmono (c.length - 2 + 1) (by omega) (c.length - 2) (by omega)
      exact ne_of_gt (by linarith)
    have ht : (searchBracket c (c.getD i 0)).t = 1 := by
      rw [hchar.2.2.2.2, hri]
      rw [show i = c.length - 2 + 1 by omega]
      exact div_self hne
    rw [heta, hchar.2.2.2.1, hri, ht]
    rw [show c.length - 2 + 1 = c.length - 1 by omega]

/-- Combined per-axis description of all brackets at an exact grid-sample
query: the weight vector consists of exact zeros and ones and the selected
corner is exactly the queried multi-index. -/
theorem brackets_at_sample (axes : List (List ℚ)) (ix : List ℕ)
    (hax : ∀ c ∈ axes, (∀ b, b < c.length → ∀ a, a < b → c.getD a 0 < c.getD b 0) ∧
      2 ≤ c.length)
    (hix : List.Forall₂ (fun (c : List ℚ) i => i < c.length) axes ix) :
    List.Forall₂ (fun t b => t = if b then (1 : ℚ) else 0)
      ((List.zipWith searchBracket axes
        (List.zipWith (fun (c : List ℚ) i => c.getD i 0) axes ix)).map CellBracket.t)
      (List.zipWith (fun (c : List ℚ) i => decide (c.length ≤ i + 1)) axes ix) ∧
    corner (List.zipWith searchBracket axes
        (List.zipWith (fun (c : List ℚ) i => c.getD i 0) axes ix))
      (List.zipWith (fun (c : List ℚ) i => decide (c.length ≤ i + 1)) axes ix) = ix := by
  induction hix with
  | nil =>
    exact ⟨List.Forall₂.nil, rfl⟩
  | @cons c i cs is hci hrest ih =>
    have hc := hax c (List.mem_cons_self c cs)
    have ihr := ih (fun a ha => hax a (List.mem_cons_of_mem c ha))
    simp only [List.zipWith_cons_cons, List.map_cons]
    rcases searchBracket_at_sample c i hc.1 hc.2 hci with ⟨hlt, hbr⟩ | ⟨heq, hbr⟩
    · have hb : decide (c.length ≤ i + 1) = false := by
        simp only [decide_eq_false_iff_not]
        omega
      constructor
      · rw [hb, hbr]
        exact List.Forall₂.cons (by simp) ihr.1
      · rw [hb, hbr]
        simp only [corner, List.zipWith_cons_cons, Bool.false_eq_true, if_false]
        rw [show List.zipWith
            (fun (br : CellBracket) b => if b then br.i1 else br.i0) (List.zipWith
              searchBracket cs (List.zipWith (fun (c : List ℚ) i => c.getD i 0) cs is))
            (List.zipWith (fun (c : List ℚ) i => decide (c.length ≤ i + 1)) cs is) =
            corner (List.zipWith searchBracket cs
              (List.zipWith (fun (c : List ℚ) i => c.getD i 0) cs is))
            (List.zipWith (fun (c : List ℚ) i => decide (c.length ≤ i + 1)) cs is) from rfl]
        rw [ihr.2]
    · have hb : decide (c.length ≤ i + 1) = true := by
        simp only [decide_eq_true_eq]
        omega
      constructor
      · rw [hb, hbr]
        exact List.Forall₂.cons (by simp) ihr.1
      · rw [hb, hbr]
        simp only [corner, List.zipWith_cons_cons, if_true]
        rw [show List.zipWith
            (fun (br : CellBracket) b => if b then br.i1 else br.i0) (List.zipWith
              searchBracket cs (List.zipWith (fun (c : List ℚ) i => c.getD i 0) cs is))
            (List.zipWith (fun (c : List ℚ) i => decide (c.length ≤ i + 1)) cs is) =
            corner (List.zipWith searchBracket cs
              (List.zipWith (fun (c : List ℚ) i => c.getD i 0) cs is))
            (List.zipWith (fun (c : List ℚ) i => decide (c.length ≤ i + 1)) cs is) from rfl]
        rw [ihr.2]
        have : c.length - 1 = i := by omega
        rw [this]

/-- C1: for every grid of dimension 2, 3 or 4 with strictly increasing axes,
multilinear interpolation evaluated at a query exactly equal to a grid
sample coordinate returns that sample's stored value exactly; since this
holds for every multi-index, interpolating at every exact grid-sample
coordinate reproduces the original sample array exactly. -/
theorem interp_exact_sample (axes : List (List ℚ)) (samples : List ℚ) (ix : List ℕ)
    (hax : ∀ c ∈ axes, (∀ b, b < c.length → ∀ a, a < b → c.getD a 0 < c.getD b 0) ∧
      2 ≤ c.length)
    (hix : List.Forall₂ (fun (c : List ℚ) i => i < c.length) axes ix)
    (_hD : axes.length = 2 ∨ axes.length = 3 ∨ axes.length = 4) :
    interpAt axes samples (List.zipWith (fun (c : List ℚ) i => c.getD i 0) axes ix) =
      gridFetch (axes.map List.length) samples ix := by
  obtain ⟨hf, hc⟩ := brackets_at_sample axes ix hax hix
  unfold interpAt
  rw [mlin_select _ _ hf, hc]

/-- Witness for exact-sample reproduction on a concrete 2 by 2 grid. -/
theorem interp_exact_sample_witness :
    ((∀ c ∈ ([[0, 1], [0, 1]] : List (List ℚ)),
        (∀ b, b < c.length → ∀ a, a < b → c.getD a 0 < c.getD b 0) ∧ 2 ≤ c.length) ∧
      List.Forall₂ (fun (c : List ℚ) i => i < c.length) [[0, 1], [0, 1]] [0, 1] ∧
      ([[0, 1], [0, 1]] : List (List ℚ)).length = 2 ∨
        ([[0, 1], [0, 1]] : List (List ℚ)).length = 3 ∨
        ([[0, 1], [0, 1]] : List (List ℚ)).length = 4) ∧
    interpAt [[0, 1], [0, 1]] [10, 20, 30, 40]
        (List.zipWith (fun (c : List ℚ) i => c.getD i 0) [[0, 1], [0, 1]] [0, 1]) =
      gridFetch (([[0, 1], [0, 1]] : List (List ℚ)).map List.length) [10, 20, 30, 40] [0, 1] :=
  ⟨Or.inl ⟨by with_unfolding_all decide,
      List.Forall₂.cons (by decide) (List.Forall₂.cons (by decide) List.Forall₂.nil), rfl⟩,
    interp_exact_sample [[0, 1], [0, 1]] [10, 20, 30, 40] [0, 1]
      (by with_unfolding_all decide)
      (List.Forall₂.cons (by decide) (List.Forall₂.cons (by decide) List.Forall₂.nil))
      (Or.inl rfl)⟩

/-- Element k of a mapped list is the function applied to element k. -/
theorem getD_map_eval (queries : List (List ℚ)) (f : List ℚ → Option ℚ) (k : ℕ)
    (hk : k < queries.length) :
    (queries.map f).getD k none = f (queries.getD k []) := by
  induction queries generalizing k with
  | nil => simp at hk
  | cons q qs ih =>
    cases k with
    | zero => rfl
    | succ k =>
      simp only [List.map_cons, List.getD_cons_succ]
      exact ih k (by simpa using hk)

/-- Clamping a coordinate at or beyond the axis maximum gives the same
clamped value as clamping the maximum itself, so the whole clamped query
vector agrees. -/
theorem zipWith_clamp_boundary (apre apost : List (List ℚ)) (c : List ℚ)
    (pre post : List ℚ) (x : ℚ) (hlen : apre.length = pre.length)
    (hx : c.getD (c.length - 1) 0 ≤ x) :
    List.zipWith clampCoord (apre ++ c :: apost) (pre ++ x :: post) =
      List.zipWith clampCoord (apre ++ c :: apost)
        (pre ++ c.getD (c.length - 1) 0 :: post) := by
  induction apre generalizing pre with
  | nil =>
    have hpre : pre = [] := by
      cases pre with
      | nil => rfl
      | cons p ps => simp at hlen
    rw [hpre]
    simp only [List.nil_append, List.zipWith_cons_cons]
    have hcl : clampCoord c x = clampCoord c (c.getD (c.length - 1) 0) := by
      unfold clampCoord
      rw [min_eq_left hx, min_self]
    rw [hcl]
  | cons a as ih =>
    cases pre with
    | nil => simp at hlen
    | cons p ps =>
      simp only [List.cons_append, List.zipWith_cons_cons]
      rw [ih ps (by simpa using hlen)]

/-- C5: in a batch under the reject policy each element is evaluated
independently of its siblings, an element whose query is out of range is
flagged with the sentinel none while every other element keeps its own
value; under the clamp policy a query at or beyond an axis maximum returns
exactly the value obtained by querying the axis boundary itself. -/
theorem batch_policies (axes : List (List ℚ)) (samples : List ℚ)
    (queries : List (List ℚ)) (k : ℕ)
    (apre apost : List (List ℚ)) (c : List ℚ) (pre post : List ℚ) (x : ℚ)
    (hk : k < queries.length)
    (hlen : apre.length = pre.length)
    (hx : c.getD (c.length - 1) 0 ≤ x) :
    ((evalBatch .reject axes samples queries).getD k none =
        evalOne .reject axes samples (queries.getD k [])) ∧
    (allInRangeB axes (queries.getD k []) = false →
        (evalBatch .reject axes samples queries).getD k none = none) ∧
    (evalOne .clamp (apre ++ c :: apost) samples (pre ++ x :: post) =
        evalOne .clamp (apre ++ c :: apost) samples
          (pre ++ c.getD (c.length - 1) 0 :: post)) := by
  refine ⟨getD_map_eval queries _ k hk, ?_, ?_⟩
  · intro hout
    have h1 : (evalBatch Policy.reject axes samples queries).getD k none =
        evalOne Policy.reject axes samples (queries.getD k []) :=
      getD_map_eval queries _ k hk
    rw [h1]
    have h2 : evalOne Policy.reject axes samples (queries.getD k []) =
        if allInRangeB axes (queries.getD k [])
          then some (interpAt axes samples (queries.getD k [])) else none := rfl
    rw [h2, hout]
    simp
  · simp only [evalOne]
    rw [zipWith_clamp_boundary apre apost c pre post x hlen hx]

/-- Witness for the batch policies on a concrete grid with one in-range and
one out-of-range element. -/
theorem batch_policies_witness :
    (1 < ([[0, 0], [11, 0]] : List (List ℚ)).length ∧
      ([] : List (List ℚ)).length = ([] : List ℚ).length ∧
      ([0, 1] : List ℚ).getD (([0, 1] : List ℚ).length - 1) 0 ≤ (11 : ℚ)) ∧
    (((evalBatch .reject [[0, 1], [0, 1]] [1, 2, 3, 4] [[0, 0], [11, 0]]).getD 1 none =
        evalOne .reject [[0, 1], [0, 1]] [1, 2, 3, 4]
          (([[0, 0], [11, 0]] : List (List ℚ)).getD 1 [])) ∧
      (allInRangeB [[0, 1], [0, 1]] (([[0, 0], [11, 0]] : List (List ℚ)).getD 1 []) = false →
        (evalBatch .reject [[0, 1], [0, 1]] [1, 2, 3, 4] [[0, 0], [11, 0]]).getD 1 none = none) ∧
      (evalOne .clamp ([] ++ [0, 1] :: [[0, 1]]) [1, 2, 3, 4] ([] ++ (11 : ℚ) :: [0]) =
        evalOne .clamp ([] ++ [0, 1] :: [[0, 1]]) [1, 2, 3, 4]
          ([] ++ ([0, 1] : List ℚ).getD (([0, 1] : List ℚ).length - 1) 0 :: [0]))) :=
  ⟨⟨by decide, rfl, by with_unfolding_all decide⟩,
    batch_policies [[0, 1], [0, 1]] [1, 2, 3, 4] [[0, 0], [11, 0]] 1
      [] [[0, 1]] [0, 1] [] [0] 11 (by decide) rfl (by with_unfolding_all decide)⟩

/-- C6: grid construction succeeds exactly when every axis passes validation
(strict monotonicity, which rules out duplicates, and a valid circular
period) and the sample array size equals the product of the axis lengths;
it fails with a construction error exactly when some condition is violated,
the check happens eagerly inside construction itself, and in the error case
no grid value is produced while in the success case the grid holds exactly
the validated inputs. -/
theorem buildGrid_validation (axes : List AxisInput) (samples : List ℚ) :
    (∀ g, buildGrid axes samples = .ok g →
      g.axes = axes ∧ g.samples = samples ∧ (∀ a ∈ axes, axisOkB a = true) ∧
        samples.length = (axes.map (fun a => a.coords.length)).prod) ∧
    ((∃ e, buildGrid axes samples = .error e) ↔
      ¬((∀ a ∈ axes, axisOkB a = true) ∧
        samples.length = (axes.map (fun a => a.coords.length)).prod)) := by
  unfold buildGrid
  by_cases hall : axes.all axisOkB = true
  · by_cases hlen : samples.length = (axes.map (fun a => a.coords.length)).prod
    · rw [if_pos hall, if_pos hlen]
      refine ⟨?_, ?_, ?_⟩
      · intro g hg
        cases hg
        exact ⟨rfl, rfl, List.all_eq_true.mp hall, hlen⟩
      · rintro ⟨e, he⟩
        exact Except.noConfusion he
      · intro hcon
        exact absurd ⟨List.all_eq_true.mp hall, hlen⟩ hcon
    · rw [if_pos hall, if_neg hlen]
      refine ⟨?_, ?_, ?_⟩
      · intro g hg
        exact Except.noConfusion hg
      · intro _ hcon
        exact hlen hcon.2
      · intro _
        exact ⟨.shapeMismatch, rfl⟩
  · rw [if_neg hall]
    have hnot : ¬∀ a ∈ axes, axisOkB a = true := fun hcon => hall (List.all_eq_true.mpr hcon)
    refine ⟨?_, ?_, ?_⟩
    · intro g hg
      exact Except.noConfusion hg
    · intro _ hcon
      exact hnot hcon.1
    · intro _
      exact ⟨.invalidAxis, rfl⟩

/-- Witness for eager construction validation: a duplicate coordinate is
rejected with an error. -/
theorem buildGrid_validation_witness :
    ∃ e, buildGrid [⟨[1, 0, 0], false, 0⟩] [1, 2, 3] = .error e :=
  (buildGrid_validation [⟨[1, 0, 0], false, 0⟩] [1, 2, 3]).2.mpr
    (by with_unfolding_all decide)

/-- C8: the inverse-distance-weighting kernel short-circuits to the exact
sample value whenever the query coincides with a grid sample (a corner at
distance zero), so the 1/distance^p weights are never formed there; when no
corner is at distance zero the result is the 1/distance^p weighted sum with
the power p configurable; the default power is 2. -/
theorem idw_kernel_spec (p : ℕ) (corners : List (ℚ × ℚ)) :
    ((∃ cr ∈ corners, cr.1 = 0) →
      ∃ cr ∈ corners, cr.1 = 0 ∧ idw p corners = cr.2) ∧
    ((∀ cr ∈ corners, cr.1 ≠ 0) →
      idw p corners =
        ((corners.map (fun cr => cr.2 / cr.1 ^ p)).sum) /
          ((corners.map (fun cr => 1 / cr.1 ^ p)).sum)) ∧
    idwDefaultPower = 2 := by
  refine ⟨?_, ?_, rfl⟩
  · intro hz
    have hsome : (corners.find? (fun cr => decide (cr.1 = 0))).isSome := by
      rw [List.find?_isSome]
      obtain ⟨cr, hmem, hcr⟩ := hz
      exact ⟨cr, hmem, by simpa using hcr⟩
    obtain ⟨cr, hcr⟩ := Option.isSome_iff_exists.mp hsome
    refine ⟨cr, List.mem_of_find?_eq_some hcr, ?_, ?_⟩
    · have := List.find?_some hcr
      simpa using this
    · unfold idw
      rw [hcr]
  · intro hnz
    have hnone : corners.find? (fun cr => decide (cr.1 = 0)) = none := by
      rw [List.find?_eq_none]
      intro cr hmem
      simpa using hnz cr hmem
    unfold idw
    rw [hnone]

/-- Witness for the short-circuit of the inverse-distance kernel at a
zero-distance corner. -/
theorem idw_kernel_spec_witness :
    ∃ cr ∈ [((0 : ℚ), (7 : ℚ)), (1, 3)], cr.1 = 0 ∧ idw 2 [((0 : ℚ), (7 : ℚ)), (1, 3)] = cr.2 :=
  (idw_kernel_spec 2 [((0 : ℚ), (7 : ℚ)), (1, 3)]).1 ⟨(0, 7), by decide, rfl⟩

/-- C7: on a 3-axis grid whose third axis is the temporal axis of integer
tick values [0, 86400, 172800] (ticks embedded into the rationals), the
bracket of the integer query tick 43200 has the fractional offset equal to
the linear ratio between the surrounding integer tick values, namely 1/2;
consequently, for every sample array, interpolating at tick 43200 above a
grid node yields the exact midpoint blend of the two surrounding time
slices. -/
theorem temporal_midpoint_blend (samples : List ℚ) :
    searchBracket [0, 86400, 172800] 43200 = ⟨0, 1, 1 / 2⟩ ∧
    interpAt [[0, 1], [0, 1], [0, 86400, 172800]] samples [0, 0, 43200] =
      (gridFetch [2, 2, 3] samples [0, 0, 0] + gridFetch [2, 2, 3] samples [0, 0, 1]) / 2 := by
  have htime : searchBracket [0, 86400, 172800] 43200 = ⟨0, 1, 1 / 2⟩ := by
    with_unfolding_all decide
  have hlon : searchBracket [0, 1] 0 = ⟨0, 1, 0⟩ := by
    with_unfolding_all decide
  refine ⟨htime, ?_⟩
  unfold interpAt
  simp only [List.zipWith_cons_cons, List.zipWith_nil_right, List.map_cons, List.map_nil]
  rw [htime, hlon]
  simp only [mlin, corner, gridFetch, flatIndex, List.zipWith_cons_cons, List.zipWith_nil_right,
    List.map_cons, List.map_nil, List.length_cons, List.length_nil]
  norm_num
  ring

/-- C9: every registered entry point carries one of exactly two sample
precisions (float64 or float32, never the integer type), and both
precisions are registered for each of the grid, trivariate and
quadrivariate interfaces. -/
theorem two_precisions_registered :
    (∀ e ∈ registeredEntryPoints,
      e.sample = NumType.float64 ∨ e.sample = NumType.float32) ∧
    (∃ e ∈ registeredEntryPoints,
      e.kind = BindingKind.gridBinding ∧ e.sample = NumType.float64) ∧
    (∃ e ∈ registeredEntryPoints,
      e.kind = BindingKind.gridBinding ∧ e.sample = NumType.float32) ∧
    (∃ e ∈ registeredEntryPoints,
      e.kind = BindingKind.trivariateBinding ∧ e.sample = NumType.float64) ∧
    (∃ e ∈ registeredEntryPoints,
      e.kind = BindingKind.trivariateBinding ∧ e.sample = NumType.float32) ∧
    (∃ e ∈ registeredEntryPoints,
      e.kind = BindingKind.quadrivariateBinding ∧ e.sample = NumType.float64) ∧
    (∃ e ∈ registeredEntryPoints,
      e.kind = BindingKind.quadrivariateBinding ∧ e.sample = NumType.float32) := by
  decide

/-- Witness for the two-precision property at the first grid registration. -/
theorem two_precisions_registered_witness :
    (⟨BindingKind.gridBinding, none, none, none, NumType.float64, false⟩ : EntryPoint).sample
        = NumType.float64 ∨
    (⟨BindingKind.gridBinding, none, none, none, NumType.float64, false⟩ : EntryPoint).sample
        = NumType.float32 :=
  two_precisions_registered.1
    ⟨BindingKind.gridBinding, none, none, none, NumType.float64, false⟩ (by decide)

/-- C10: the temporal geometry appears in exactly one registered entry
point, which is a trivariate instantiation with int64 temporal axis element
type and float64 samples; every quadrivariate registration uses the
real-valued EquatorialPoint4D geometry with double coordinates, so no
4-axis temporal grid and no float32-sample temporal trivariate grid is
constructible through the registered entry points. -/
theorem temporal_only_trivariate_double :
    (∀ e ∈ registeredEntryPoints, e.point = some GeomPoint.temporalEquatorial2D →
      e.kind = BindingKind.trivariateBinding ∧ e.axisType = some NumType.int64 ∧
        e.sample = NumType.float64 ∧ e.temporalTag = true) ∧
    (registeredEntryPoints.filter
      (fun e => decide (e.point = some GeomPoint.temporalEquatorial2D))).length = 1 ∧
    (∀ e ∈ registeredEntryPoints, e.kind = BindingKind.quadrivariateBinding →
      e.point = some GeomPoint.equatorialPoint4D ∧ e.coordType = some NumType.float64) := by
  decide

/-- Witness for the temporal-instantiation property at the registered
temporal entry point. -/
theorem temporal_only_trivariate_double_witness :
    (⟨BindingKind.trivariateBinding, some GeomPoint.temporalEquatorial2D, some NumType.float64,
        some NumType.int64, NumType.float64, true⟩ : EntryPoint).kind
        = BindingKind.trivariateBinding ∧
    (⟨BindingKind.trivariateBinding, some GeomPoint.temporalEquatorial2D, some NumType.float64,
        some NumType.int64, NumType.float64, true⟩ : EntryPoint).axisType
        = some NumType.int64 ∧
    (⟨BindingKind.trivariateBinding, some GeomPoint.temporalEquatorial2D, some NumType.float64,
        some NumType.int64, NumType.float64, true⟩ : EntryPoint).sample = NumType.float64 ∧
    (⟨BindingKind.trivariateBinding, some GeomPoint.temporalEquatorial2D, some NumType.float64,
        some NumType.int64, NumType.float64, true⟩ : EntryPoint).temporalTag = true :=
  temporal_only_trivariate_double.1
    ⟨BindingKind.trivariateBinding, some GeomPoint.temporalEquatorial2D, some NumType.float64,
      some NumType.int64, NumType.float64, true⟩ (by decide) (by decide)
